import Mathlib

/-!
# Verification of the MLP_bins orchestration core

Shallow embedding of `src/Experiment.py` and `src/main.py`:

* the checkpoint-resumable epoch loop (`Experiment.train`,
  `Experiment._train_single_epoch`),
* the checkpoint-measurement scheduling policy
  (`Experiment.do_measurements_on_checkpoints`, `Experiment.do_measurements`),
* measurer-set resolution at construction (`Experiment.__init__`),
* the batch-submission fan-out (`main.main`).

Python strings are modelled as `List Char`; machine behaviour that the
claims depend on (CPython list iteration under in-place mutation,
`str.endswith`, zero-padded formatting, lexicographic `sorted`) is
embedded explicitly.  Collaborators whose code is not under `src/`
(`Logger`, `Measurer`, `slurm_utils`) are modelled from the spec; each
such definition carries a doc comment starting `Modelled from the spec:`.
-/

namespace MLPBins

/-! ## Decimal digits and zero-padded checkpoint names -/

/-- The decimal digit characters, `digitChar d` for `d < 10`.
Mirrors the characters produced by Python's `str()` / format. -/
def digitChar (d : Nat) : Char :=
  match d with
  | 0 => '0' | 1 => '1' | 2 => '2' | 3 => '3' | 4 => '4'
  | 5 => '5' | 6 => '6' | 7 => '7' | 8 => '8' | _ => '9'

/-- Fuel-driven helper for `digits`; the fuel strictly dominates the
argument, so it never runs out. -/
def digitsAux : Nat → Nat → List Char
  | 0, _ => []
  | fuel + 1, n =>
    if n < 10 then [digitChar n]
    else digitsAux fuel (n / 10) ++ [digitChar (n % 10)]

/-- Decimal representation of a natural number as a character list,
as Python's `str(n)` produces (no leading zeros; `0 ↦ "0"`). -/
def digits (n : Nat) : List Char := digitsAux (n + 1) n

theorem digitsAux_congr : ∀ n f₁ f₂, n < f₁ → n < f₂ →
    digitsAux f₁ n = digitsAux f₂ n := by
  intro n
  induction n using Nat.strong_induction_on with
  | _ n ih =>
    intro f₁ f₂ h₁ h₂
    match f₁, f₂ with
    | g₁ + 1, g₂ + 1 =>
      simp only [digitsAux]
      by_cases hn : n < 10
      · simp [hn]
      · simp only [if_neg hn]
        rw [ih (n / 10) (Nat.div_lt_self (by omega) (by omega)) g₁ g₂
          (by omega) (by omega)]

theorem digits_lt (n : Nat) (h : n < 10) : digits n = [digitChar n] := by
  simp [digits, digitsAux, h]

theorem digits_ge (n : Nat) (h : 10 ≤ n) :
    digits n = digits (n / 10) ++ [digitChar (n % 10)] := by
  have hd : n / 10 < n := Nat.div_lt_self (by omega) (by omega)
  simp only [digits]
  rw [digitsAux_congr (n / 10) (n / 10 + 1) n (by omega) (by omega)]
  show (if n < 10 then [digitChar n]
      else digitsAux n (n / 10) ++ [digitChar (n % 10)]) = _
  rw [if_neg (by omega : ¬ n < 10)]

/-- Python's `f'{n:0>3}'`: the decimal representation left-padded with
`'0'` to width at least 3 (wider numbers are left untouched). -/
def pad3 (n : Nat) : List Char :=
  List.replicate (3 - (digits n).length) '0' ++ digits n

/-- The `".tar"` filename extension, as a character list. -/
def tarExt : List Char := '.' :: 't' :: 'a' :: 'r' :: []

/-- Modelled from the spec: `Logger.save_model` (not under `src/`)
persists the checkpoint for epoch `e` under a filename ending in the
epoch zero-padded to width 3 followed by `.tar` — exactly the suffix
format `do_measurements_on_checkpoints` tests with
`path.endswith(f'{epoch:0>3}.tar')`. -/
def ckptName (e : Nat) : List Char := pad3 e ++ tarExt

/-! ## Lexicographic string order (Python `sorted` on paths) -/

/-- Python string `<=`: lexicographic comparison by code point. -/
def lexLe : List Char → List Char → Bool
  | [], _ => true
  | _ :: _, [] => false
  | a :: as, b :: bs =>
    if a.toNat < b.toNat then true
    else if b.toNat < a.toNat then false
    else lexLe as bs

/-- Insert into a `lexLe`-sorted list (helper for `lexSort`). -/
def insLex (x : List Char) : List (List Char) → List (List Char)
  | [] => [x]
  | y :: ys => if lexLe x y then x :: y :: ys else y :: insLex x ys

/-- Sort a list of strings into lexicographically ascending order
(insertion sort); models Python's `sorted` on a list of paths. -/
def lexSort (l : List (List Char)) : List (List Char) :=
  l.foldr insLex []

/-- Modelled from the spec: `Logger.get_all_saved_model_paths` (not
under `src/`) enumerates the checkpoint files of the run — "an ordered
set of epoch identifiers present" — i.e. the names of the saved epochs
in lexicographically ascending filename order. -/
def getAllSavedModelPaths (savedEpochs : List Nat) : List (List Char) :=
  lexSort (savedEpochs.map ckptName)

/-! ## Checkpoint reordering in `do_measurements_on_checkpoints`

Source, `src/Experiment.py` lines 143–151:
```
priority_checkpoints = [600, 300, 100, 10, 1, 0]
for epoch in reversed(priority_checkpoints):
    for path in model_path_list:
        if path.endswith(f'{epoch:0>3}.tar'):
            model_path_list.remove(path)
            model_path_list.append(path)
            continue
model_path_list = list(reversed(model_path_list))
```
The inner `for` iterates the very list it mutates: CPython's list
iterator reads position `i` of the *current* list and advances `i`
regardless of mutation, and the loop body removes the first occurrence
of the current element and re-appends it (so the length is constant and
the loop runs exactly `length` iterations).  `movePassAux` embeds one
inner loop with the iteration index and the remaining iteration count
explicit. -/

/-- One inner `for path in model_path_list` loop of the reordering:
`fuel` many steps remain, `i` is the CPython iterator index.  A matching
element is removed (first occurrence, as `list.remove`) and re-appended;
the index advances by one either way. -/
def movePassAux (pat : List Char) : Nat → List (List Char) → Nat → List (List Char)
  | 0, l, _ => l
  | fuel + 1, l, i =>
    if h : i < l.length then
      if pat.isSuffixOf (l.get ⟨i, h⟩) then
        movePassAux pat fuel (l.erase (l.get ⟨i, h⟩) ++ [l.get ⟨i, h⟩]) (i + 1)
      else movePassAux pat fuel l (i + 1)
    else l

/-- One full inner loop over `l`: the list keeps its length under
remove-then-append, so CPython performs exactly `l.length` iterations. -/
def movePass (pat : List Char) (l : List (List Char)) : List (List Char) :=
  movePassAux pat l.length l 0

/-- The fixed priority list of `do_measurements_on_checkpoints`. -/
def priorityCheckpoints : List Nat := [600, 300, 100, 10, 1, 0]

/-- Lines 144–151 of `src/Experiment.py`: for each priority epoch in
reversed order run one mutate-while-iterating pass with the pattern
`f'{epoch:0>3}.tar'`, then reverse the resulting list. -/
def reorderPaths (l : List (List Char)) : List (List Char) :=
  (priorityCheckpoints.reverse.foldl
    (fun acc e => movePass (pad3 e ++ tarExt) acc) l).reverse

/-- The order in which `do_measurements_on_checkpoints` visits the saved
checkpoints of a run whose saved epochs are `savedEpochs`. -/
def visitOrder (savedEpochs : List Nat) : List (List Char) :=
  reorderPaths (getAllSavedModelPaths savedEpochs)

/-- The visit order the *spec* claims (C1), written from the spec's
words, for comparison with `visitOrder`: checkpoints at priority epochs
first in descending priority value, then all remaining checkpoints in
descending epoch order (`savedEpochs` given ascending). -/
def claimedOrder (savedEpochs : List Nat) : List (List Char) :=
  (priorityCheckpoints.filter (fun p => p ∈ savedEpochs) ++
    (savedEpochs.filter (fun e => e ∉ priorityCheckpoints)).reverse).map ckptName

/-! ## The resumable training loop (`Experiment.train`)

`σ` is the combined model + optimizer state; one epoch of SGD updates
(`_train_single_epoch`'s batch loop followed by `lr_scheduler.step()`)
is the oracle `upd : Nat → σ → σ`.  Whether the loss becomes NaN during
epoch `e` is the oracle `nanAt : Nat → Bool`: `_train_single_epoch`
checks `loss.isnan()` after the gradient step of each batch and raises
`RuntimeError` — a fatal, uncaught error — so a NaN epoch ends the call
immediately, with no further statement of `train` executed. -/

/-- Observable actions of one `train()` call, in program order. -/
inductive Event where
  /-- `self.logger.save_model(..., epoch, ...)` was executed. -/
  | save (epoch : Nat)
  /-- `self._train_single_epoch()` ran to completion for this epoch. -/
  | run (epoch : Nat)
  /-- the `RuntimeError("Loss is NaN...")` abort fired. -/
  | abort
deriving DecidableEq, Repr

/-- The checkpoint store: epoch ↦ saved state.  `Logger.save_model`
writes the file for that epoch, overwriting a previous file of the same
name, so saving filters out any older entry for the same epoch. -/
def saveModel {σ : Type} (store : List (Nat × σ)) (e : Nat) (s : σ) :
    List (Nat × σ) :=
  store.filter (fun p => !(p.1 == e)) ++ [(e, s)]

/-- `sorted(self.logger.get_all_saved_model_paths())[-1]` followed by
`load_model`: the stored entry whose checkpoint filename is
lexicographically greatest (`none` on an empty store). -/
def latestCheckpoint {σ : Type} : List (Nat × σ) → Option (Nat × σ)
  | [] => none
  | (e, s) :: rest =>
    match latestCheckpoint rest with
    | none => some (e, s)
    | some (e', s') =>
      if lexLe (ckptName e) (ckptName e') then some (e', s') else some (e, s)

/-- The epoch loop of `train` (`for epoch in range(start, max_epochs)`,
lines 127–137): at each epoch first save a checkpoint if the epoch is a
log epoch, then run `_train_single_epoch` — raising (abort) if the loss
goes NaN during it — and otherwise apply the epoch's updates and move
on.  After the loop, unconditionally save a final checkpoint at
`max_epochs`.  `fuel` is the number of remaining loop iterations
(`maxEpochs - epoch`). -/
def trainGo {σ : Type} (upd : Nat → σ → σ) (nanAt : Nat → Bool)
    (logEpochs : List Nat) (maxEpochs : Nat) :
    Nat → Nat → σ → List (Nat × σ) → List (Nat × σ) × List Event × Bool
  | 0, _, model, store =>
    (saveModel store maxEpochs model, [Event.save maxEpochs], false)
  | fuel + 1, epoch, model, store =>
    let store' := if epoch ∈ logEpochs then saveModel store epoch model else store
    let evs := if epoch ∈ logEpochs then [Event.save epoch] else []
    if nanAt epoch then
      (store', evs ++ [Event.abort], true)
    else
      let r := trainGo upd nanAt logEpochs maxEpochs fuel (epoch + 1)
        (upd epoch model) store'
      (r.1, evs ++ Event.run epoch :: r.2.1, r.2.2)

/-- `Experiment.train` (lines 108–137): resume from the latest
checkpoint if any exists (skipping entirely when its epoch is already
`>= max_epochs`), else start at epoch 0; then run the epoch loop.
Returns the final checkpoint store, the events of this call in program
order, and whether the call aborted on NaN. -/
def train {σ : Type} (upd : Nat → σ → σ) (nanAt : Nat → Bool)
    (logEpochs : List Nat) (maxEpochs : Nat) (model₀ : σ)
    (store : List (Nat × σ)) : List (Nat × σ) × List Event × Bool :=
  match latestCheckpoint store with
  | some (e, s) =>
    if e ≥ maxEpochs then (store, [], false)
    else trainGo upd nanAt logEpochs maxEpochs (maxEpochs - e) e s store
  | none => trainGo upd nanAt logEpochs maxEpochs maxEpochs 0 model₀ store

/-- The state entering epoch `e + k` of a run whose state entering
epoch `e` is `m`: the updates of epochs `e, e+1, …, e+k-1` applied. -/
def iterUpd {σ : Type} (upd : Nat → σ → σ) : σ → Nat → Nat → σ
  | m, _, 0 => m
  | m, e, k + 1 => iterUpd upd (upd e m) (e + 1) k

/-! ## `Experiment.do_measurements` -/

/-- A measurement record (`pandas.DataFrame`): named columns and rows of
cell values (cell contents are irrelevant to the claims, so cells are
abstracted to `Nat`). -/
structure DF where
  cols : List (List Char)
  rows : List (List Nat)
deriving DecidableEq, Repr

/-- The `'value'` column name. -/
def valueCol : List Char := 'v' :: 'a' :: 'l' :: 'u' :: 'e' :: []

/-- The `'epoch'` column name. -/
def epochCol : List Char := 'e' :: 'p' :: 'o' :: 'c' :: 'h' :: []

/-- `df.insert(0, 'epoch', epoch)`: a new first column named `epoch`
whose value in every row is the scalar `e`. -/
def insertEpoch (e : Nat) (df : DF) : DF :=
  ⟨epochCol :: df.cols, df.rows.map (fun r => e :: r)⟩

/-- Lines 181–182: stamp the record with the epoch when one is known
(`if epoch is not None`). -/
def stampIf (epoch : Option Nat) (df : DF) : DF :=
  match epoch with
  | some e => insertEpoch e df
  | none => df

/-- `Experiment.do_measurements` (lines 157–186), with each measurer's
returned record supplied as an oracle: the items of `self.measures` in
order, paired with the `DataFrame` that measurer returns for the
current model.  For each measurer in order: the `assert` demands a
`value` column or zero rows (its failure, `AssertionError`, carries the
measurer id and aborts the whole call); a zero-row record is skipped
with a warning; otherwise, when an epoch is known, every row is stamped
with it as a new first column, and the record is added under the
measurer's key.  Returns the warned ids and the ordered output mapping. -/
def doMeasurements (epoch : Option Nat) :
    List (List Char × DF) → Except (List Char) (List (List Char) × List (List Char × DF))
  | [] => .ok ([], [])
  | (id, df) :: rest =>
    if valueCol ∈ df.cols ∨ df.rows = [] then
      if df.rows = [] then
        match doMeasurements epoch rest with
        | .error i => .error i
        | .ok (ws, out) => .ok (id :: ws, out)
      else
        match doMeasurements epoch rest with
        | .error i => .error i
        | .ok (ws, out) => .ok (ws, (id, stampIf epoch df) :: out)
    else .error id

/-! ## Measurer-set resolution (`Experiment.__init__`, lines 49–62) -/

/-- Modelled from the spec: the `Measurer` module is not under `src/`;
it exposes three fixed module-level collections of measurer names.
Their concrete contents are irrelevant to the claims; placeholder names
are used, with the preset lists subsets of the full list as the spec
describes. -/
def ALL_MEASURES : List (List Char) :=
  [['m', '1'], ['m', '2'], ['m', '3'], ['m', '4']]

/-- Modelled from the spec: the `"fast"` preset subset of measurers. -/
def FAST_MEASURES : List (List Char) := [['m', '1'], ['m', '2']]

/-- Modelled from the spec: the `"slow"` preset subset of measurers. -/
def SLOW_MEASURES : List (List Char) := [['m', '3'], ['m', '4']]

/-- Python `str.lower()` (ASCII case folding suffices here). -/
def strLower (s : List Char) : List Char := s.map Char.toLower

/-- The `Measurements.measures` configuration value: the YAML literal
`true`, a string, or an explicit list of measurer names.  (`measures is
True` in the source matches only the literal `True`.) -/
inductive MeasuresCfg where
  | all
  | preset (s : List Char)
  | explicitNames (names : List (List Char))

/-- The `'fast'` preset string. -/
def fastStr : List Char := 'f' :: 'a' :: 's' :: 't' :: []

/-- The `'slow'` preset string. -/
def slowStr : List Char := 's' :: 'l' :: 'o' :: 'w' :: []

/-- Lines 49–59 of `src/Experiment.py`: resolve the configured measure
set.  `True` means all known measurers; a string selects a preset by
its lowercase form, any other string raising `NotImplementedError`
(carrying the string); any other value is used directly as the
collection of measurer names. -/
def resolveMeasures : MeasuresCfg → Except (List Char) (List (List Char))
  | .all => .ok ALL_MEASURES
  | .preset s =>
    if strLower s = fastStr then .ok FAST_MEASURES
    else if strLower s = slowStr then .ok SLOW_MEASURES
    else .error s
  | .explicitNames names => .ok names

/-- The fields of a constructed `Experiment` relevant to the claims:
the measurer set resolved once in `__init__`. -/
structure Experiment where
  measures : List (List Char)

/-- `Experiment.__init__`: construction resolves the measure set (lines
49–62) before any training or measurement work exists; a resolution
error propagates out of the constructor, so no `Experiment` value — and
hence no `train()` or measurement call, which require one — can follow. -/
def mkExperiment (cfg : MeasuresCfg) : Except (List Char) Experiment :=
  match resolveMeasures cfg with
  | .error s => .error s
  | .ok ms => .ok ⟨ms⟩

/-! ## Batch fan-out (`main.main`, `src/main.py` lines 22–34) -/

/-- Modelled from the spec: a concrete run configuration together with
its relative save directory, as produced by
`slurm_utils.parse_config_matrix` (not under `src/`). -/
structure ConfigVariant where
  cfgId : Nat
  relSavedir : List Char

/-- Observable actions of the fan-out path of `main`. -/
inductive SubmitAction where
  /-- a run directory and launch script were materialized for job `k`. -/
  | write (k : Nat)
  /-- job `k` was submitted to the batch scheduler. -/
  | submit (k : Nat)
deriving DecidableEq, Repr

/-- Modelled from the spec: submitting all `n` expanded jobs as
independent jobs to the external scheduler
(`slurm_utils.run_experiments`, not under `src/`); submission of job
`k` may fail (`failAt k`), which stops the process at that point — jobs
already submitted stay submitted, there is no rollback operation. -/
def submitJobs (failAt : Nat → Bool) : Nat → Nat → List SubmitAction
  | _, 0 => []
  | k, n + 1 =>
    if failAt k then []
    else SubmitAction.submit k :: submitJobs failAt (k + 1) n

/-- `main(config, parse_and_submit_to_slurm=True)` (lines 22–34):
`parse_config_matrix` expands the whole matrix in memory first (its
outcome is the oracle `expansion`; an expansion failure propagates
before anything else runs); then each variant is materialized in its
directory; then `run_experiments` submits the batch.  Returns the trace
of actions performed. -/
def mainSlurm (expansion : Except (List Char) (List ConfigVariant))
    (failAt : Nat → Bool) : Except (List Char) (List SubmitAction) :=
  match expansion with
  | .error e => .error e
  | .ok variants =>
    .ok ((List.range variants.length).map SubmitAction.write ++
      submitJobs failAt 0 variants.length)

/-! ## Lemmas: digits, padded names, and their order -/

theorem digitChar_eq_iff : ∀ a, a < 10 → ∀ b, b < 10 →
    (digitChar a = digitChar b ↔ a = b) := by decide

theorem digitChar_toNat_lt_iff : ∀ a, a < 10 → ∀ b, b < 10 →
    ((digitChar a).toNat < (digitChar b).toNat ↔ a < b) := by decide

/-- For epochs below 1000 the padded name is exactly the three decimal
digits (hundreds, tens, ones). -/
theorem pad3_eq_three (e : Nat) (he : e < 1000) :
    pad3 e = [digitChar (e / 100), digitChar (e / 10 % 10), digitChar (e % 10)] := by
  rcases Nat.lt_or_ge e 10 with h10 | h10
  · have : digits e = [digitChar e] := digits_lt e h10
    simp only [pad3, this]
    have h100 : e / 100 = 0 := by omega
    have h10' : e / 10 % 10 = 0 := by omega
    have hm : e % 10 = e := by omega
    simp [h100, h10', hm, List.replicate, digitChar]
  · rcases Nat.lt_or_ge e 100 with h100 | h100
    · have hq : e / 10 < 10 := by omega
      have : digits e = [digitChar (e / 10), digitChar (e % 10)] := by
        rw [digits_ge e h10, digits_lt _ hq]; rfl
      simp only [pad3, this]
      have he100 : e / 100 = 0 := by omega
      have hmod : e / 10 % 10 = e / 10 := by omega
      simp [he100, hmod, List.replicate, digitChar]
    · have hq1 : 10 ≤ e / 10 := by omega
      have hq2 : e / 10 < 100 := by omega
      have hqq : e / 10 / 10 = e / 100 := by omega
      have hqlt : e / 100 < 10 := by omega
      have : digits e = [digitChar (e / 100), digitChar (e / 10 % 10), digitChar (e % 10)] := by
        rw [digits_ge e h10, digits_ge _ hq1, hqq, digits_lt _ hqlt]; rfl
      simp [pad3, this, List.replicate]

theorem ckptName_inj (e f : Nat) (he : e < 1000) (hf : f < 1000) :
    ckptName e = ckptName f ↔ e = f := by
  constructor
  · intro h
    simp only [ckptName, pad3_eq_three e he, pad3_eq_three f hf,
      List.cons_append, List.nil_append, List.cons.injEq] at h
    rw [digitChar_eq_iff _ (by omega) _ (by omega)] at h
    have h2 := h.2.1
    rw [digitChar_eq_iff _ (by omega) _ (by omega)] at h2
    have h3 := h.2.2.1
    rw [digitChar_eq_iff _ (by omega) _ (by omega)] at h3
    omega
  · intro h; rw [h]

theorem ckptName_length (e : Nat) (he : e < 1000) :
    (ckptName e).length = 7 := by
  simp [ckptName, pad3_eq_three e he, tarExt]

/-- The suffix test of line 147: for epochs below 1000 the names have
equal length, so `path.endswith(f'{p:0>3}.tar')` holds iff the epochs
coincide. -/
theorem isSuffixOf_ckptName (p e : Nat) (hp : p < 1000) (he : e < 1000) :
    (ckptName p).isSuffixOf (ckptName e) = true ↔ p = e := by
  rw [List.isSuffixOf_iff_suffix]
  constructor
  · intro h
    have := h.eq_of_length (by rw [ckptName_length p hp, ckptName_length e he])
    exact (ckptName_inj p e hp he).mp this
  · intro h; rw [h]

theorem lexLe_tarExt : lexLe tarExt tarExt = true := by decide

theorem lexLe_cons (a b : Char) (as bs : List Char) :
    lexLe (a :: as) (b :: bs) =
      if a.toNat < b.toNat then true
      else if b.toNat < a.toNat then false
      else lexLe as bs := rfl

theorem lexLe_digitChar_lt (x y : Nat) (hx : x < 10) (hy : y < 10)
    (h : x < y) (as bs : List Char) :
    lexLe (digitChar x :: as) (digitChar y :: bs) = true := by
  rw [lexLe_cons, if_pos ((digitChar_toNat_lt_iff x hx y hy).mpr h)]

theorem lexLe_digitChar_gt (x y : Nat) (hx : x < 10) (hy : y < 10)
    (h : y < x) (as bs : List Char) :
    lexLe (digitChar x :: as) (digitChar y :: bs) = false := by
  rw [lexLe_cons,
    if_neg (fun hc => by rw [digitChar_toNat_lt_iff x hx y hy] at hc; omega),
    if_pos ((digitChar_toNat_lt_iff y hy x hx).mpr h)]

theorem lexLe_digitChar_eq (x y : Nat) (h : x = y) (as bs : List Char) :
    lexLe (digitChar x :: as) (digitChar y :: bs) = lexLe as bs := by
  subst h
  rw [lexLe_cons, if_neg (Nat.lt_irrefl _), if_neg (Nat.lt_irrefl _)]

/-- For epochs below 1000, lexicographic order on checkpoint filenames
agrees with numeric order on epochs. -/
theorem lexLe_ckptName (e f : Nat) (he : e < 1000) (hf : f < 1000) :
    lexLe (ckptName e) (ckptName f) = true ↔ e ≤ f := by
  simp only [ckptName, pad3_eq_three e he, pad3_eq_three f hf,
    List.cons_append, List.nil_append]
  rcases Nat.lt_trichotomy (e / 100) (f / 100) with h1 | h1 | h1
  · rw [lexLe_digitChar_lt _ _ (by omega) (by omega) h1]
    exact iff_of_true rfl (by omega)
  · rw [lexLe_digitChar_eq _ _ h1]
    rcases Nat.lt_trichotomy (e / 10 % 10) (f / 10 % 10) with h2 | h2 | h2
    · rw [lexLe_digitChar_lt _ _ (by omega) (by omega) h2]
      exact iff_of_true rfl (by omega)
    · rw [lexLe_digitChar_eq _ _ h2]
      rcases Nat.lt_trichotomy (e % 10) (f % 10) with h3 | h3 | h3
      · rw [lexLe_digitChar_lt _ _ (by omega) (by omega) h3]
        exact iff_of_true rfl (by omega)
      · rw [lexLe_digitChar_eq _ _ h3, lexLe_tarExt]
        exact iff_of_true rfl (by omega)
      · rw [lexLe_digitChar_gt _ _ (by omega) (by omega) h3]
        exact iff_of_false (by simp) (by omega)
    · rw [lexLe_digitChar_gt _ _ (by omega) (by omega) h2]
      exact iff_of_false (by simp) (by omega)
  · rw [lexLe_digitChar_gt _ _ (by omega) (by omega) h1]
    exact iff_of_false (by simp) (by omega)

/-! ## Lemmas: the mutate-while-iterating reordering pass -/

theorem movePassAux_out (pat : List Char) (fuel : Nat) (l : List (List Char))
    (i : Nat) (h : l.length ≤ i) : movePassAux pat fuel l i = l := by
  cases fuel with
  | zero => rfl
  | succ fuel => simp only [movePassAux, dif_neg (by omega : ¬ i < l.length)]

/-- A pass whose pattern matches no element of the list leaves the list
unchanged. -/
theorem movePassAux_no_match (pat : List Char) :
    ∀ (fuel : Nat) (l : List (List Char)) (i : Nat),
      (∀ x ∈ l, pat.isSuffixOf x = false) →
      movePassAux pat fuel l i = l := by
  intro fuel
  induction fuel with
  | zero => intro l i _; rfl
  | succ fuel ih =>
    intro l i hl
    by_cases h : i < l.length
    · simp only [movePassAux, dif_pos h]
      rw [if_neg (by rw [hl _ (l.get_mem i h)]; simp)]
      exact ih l (i + 1) hl
    · exact movePassAux_out pat (fuel + 1) l i (by omega)

/-- A pass over a duplicate-free list with exactly one matching element
`m`, none of whose positions before the iteration index hold `m`, moves
`m` to the back and leaves everything else in place.  (The iterator
skips the element following a removal, but with a unique match the
skipped element never matters; the moved element is re-encountered at
the back and re-moved, a no-op.) -/
theorem movePassAux_unique (pat m : List Char) (hm : pat.isSuffixOf m = true) :
    ∀ (fuel : Nat) (l : List (List Char)) (i : Nat),
      l.Nodup → m ∈ l →
      (∀ x ∈ l, pat.isSuffixOf x = true → x = m) →
      (∀ (j : Nat) (hj : j < l.length), j < i → l.get ⟨j, hj⟩ ≠ m) →
      l.length ≤ i + fuel →
      movePassAux pat fuel l i = l.erase m ++ [m] := by
  intro fuel
  induction fuel with
  | zero =>
    intro l i hnd hmem huniq hpass hfuel
    exfalso
    obtain ⟨⟨j, hj⟩, hget⟩ := List.mem_iff_get.mp hmem
    exact hpass j hj (by omega) hget
  | succ fuel ih =>
    intro l i hnd hmem huniq hpass hfuel
    by_cases h : i < l.length
    · simp only [movePassAux, dif_pos h]
      by_cases hmatch : pat.isSuffixOf (l.get ⟨i, h⟩) = true
      · have hpm : l.get ⟨i, h⟩ = m := huniq _ (l.get_mem i h) hmatch
        rw [if_pos hmatch, hpm]
        have hmnotin : m ∉ l.erase m := fun hc =>
          ((hnd.mem_erase_iff).mp hc).1 rfl
        have hlen' : (l.erase m ++ [m]).length = l.length := by
          rw [List.length_append, List.length_erase_of_mem hmem]
          simp; omega
        by_cases hi : i + 1 < l.length
        · have hpass' : ∀ (j : Nat) (hj : j < (l.erase m ++ [m]).length),
              j < i + 1 → (l.erase m ++ [m]).get ⟨j, hj⟩ ≠ m := by
            intro j hj hji
            have hjlt : j < (l.erase m).length := by
              rw [List.length_erase_of_mem hmem]; omega
            rw [List.get_append j hjlt]
            intro hc
            have hgm := (l.erase m).get_mem j hjlt
            rw [hc] at hgm
            exact hmnotin hgm
          have huniq' : ∀ x ∈ l.erase m ++ [m],
              pat.isSuffixOf x = true → x = m := by
            intro x hx hsuf
            rcases List.mem_append.mp hx with hx | hx
            · exact huniq x (List.erase_subset _ _ hx) hsuf
            · simpa using hx
          have hnd' : (l.erase m ++ [m]).Nodup := by
            refine (hnd.erase m).append (by simp) ?_
            intro x hx1 hx2
            simp only [List.mem_singleton] at hx2
            exact hmnotin (hx2 ▸ hx1)
          have hmem' : m ∈ l.erase m ++ [m] := by simp
          have := ih (l.erase m ++ [m]) (i + 1) hnd' hmem' huniq' hpass'
            (by omega)
          rw [this, List.erase_append_right _ hmnotin,
            List.erase_cons_head, List.append_nil]
        · rw [movePassAux_out pat fuel (l.erase m ++ [m]) (i + 1) (by omega)]
      · rw [if_neg hmatch]
        apply ih l (i + 1) hnd hmem huniq ?_ (by omega)
        intro j hj hji
        rcases Nat.lt_or_ge j i with hji' | hji'
        · exact hpass j hj hji'
        · have hje : j = i := by omega
          subst hje
          intro hc
          exact hmatch (by rw [show l.get ⟨j, hj⟩ = l.get ⟨j, h⟩ from rfl] at hc; rw [hc]; exact hm)
    · exfalso
      obtain ⟨⟨j, hj⟩, hget⟩ := List.mem_iff_get.mp hmem
      exact hpass j hj (by omega) hget

theorem movePass_no_match (pat : List Char) (l : List (List Char))
    (hl : ∀ x ∈ l, pat.isSuffixOf x = false) : movePass pat l = l :=
  movePassAux_no_match pat l.length l 0 hl

theorem movePass_unique (pat m : List Char) (l : List (List Char))
    (hm : pat.isSuffixOf m = true) (hnd : l.Nodup) (hmem : m ∈ l)
    (huniq : ∀ x ∈ l, pat.isSuffixOf x = true → x = m) :
    movePass pat l = l.erase m ++ [m] :=
  movePassAux_unique pat m hm l.length l 0 hnd hmem huniq
    (fun j hj hji => by omega) (by omega)

theorem isSuffixOf_ckptName_self (p : Nat) :
    (ckptName p).isSuffixOf (ckptName p) = true :=
  (List.isSuffixOf_iff_suffix).mpr (List.suffix_refl _)

theorem ckptName_beq (e p : Nat) (he : e < 1000) (hp : p < 1000) :
    (ckptName e == ckptName p) = (e == p) := by
  by_cases h : e = p
  · subst h; simp
  · have hne : ckptName e ≠ ckptName p := fun hc => h ((ckptName_inj e p he hp).mp hc)
    simp [h, hne]

theorem map_erase_ckptName (A : List Nat) (p : Nat)
    (hA : ∀ e ∈ A, e < 1000) (hp : p < 1000) (hnd : A.Nodup) :
    (A.map ckptName).erase (ckptName p) = (A.erase p).map ckptName := by
  have hndm : (A.map ckptName).Nodup :=
    hnd.map_on (fun x hx y hy hxy => (ckptName_inj x y (hA x hx) (hA y hy)).mp hxy)
  rw [hndm.erase_eq_filter, hnd.erase_eq_filter, List.filter_map]
  apply congrArg
  apply List.filter_congr
  intro e he
  simp only [Function.comp]
  rw [bne, bne, ckptName_beq e p (hA e he) hp]

/-- The outer loop over the reversed priority list: starting from the
unmoved names of `A` followed by the already-moved names `T` (all
epochs below 1000, no duplicates, no pending priority already in `T`),
the fold moves the name of each listed priority epoch present in `A` to
the back, in list order, and touches nothing else. -/
theorem reorder_fold :
    ∀ (ps A T : List Nat),
      ps.Nodup → (∀ p ∈ ps, p < 1000) →
      (∀ e ∈ A, e < 1000) → (∀ e ∈ T, e < 1000) →
      (A ++ T).Nodup →
      (∀ p ∈ ps, p ∉ T) →
      ps.foldl (fun acc e => movePass (ckptName e) acc)
        (A.map ckptName ++ T.map ckptName)
      = (A.filter (fun e => e ∉ ps)).map ckptName ++
        (T ++ ps.filter (fun p => p ∈ A)).map ckptName := by
  intro ps
  induction ps with
  | nil =>
    intro A T _ _ _ _ _ _
    simp
  | cons p ps ih =>
    intro A T hndps hps1000 hA1000 hT1000 hndAT hpsT
    have hp1000 : p < 1000 := hps1000 p (List.mem_cons_self p ps)
    have hndA : A.Nodup := (List.nodup_append.mp hndAT).1
    have hndT : T.Nodup := (List.nodup_append.mp hndAT).2.1
    have hdisj : List.Disjoint A T := (List.nodup_append.mp hndAT).2.2
    simp only [List.foldl_cons]
    by_cases hpA : p ∈ A
    · have hstep : movePass (ckptName p) (A.map ckptName ++ T.map ckptName)
          = (A.erase p).map ckptName ++ (T ++ [p]).map ckptName := by
        have hndm : (A.map ckptName ++ T.map ckptName).Nodup := by
          rw [← List.map_append]
          exact hndAT.map_on (fun x hx y hy hxy =>
            (ckptName_inj x y
              (by rcases List.mem_append.mp hx with h | h
                  · exact hA1000 x h
                  · exact hT1000 x h)
              (by rcases List.mem_append.mp hy with h | h
                  · exact hA1000 y h
                  · exact hT1000 y h)).mp hxy)
        have hmem : ckptName p ∈ A.map ckptName ++ T.map ckptName :=
          List.mem_append_left _ (List.mem_map_of_mem ckptName hpA)
        have huniq : ∀ x ∈ A.map ckptName ++ T.map ckptName,
            (ckptName p).isSuffixOf x = true → x = ckptName p := by
          intro x hx hsuf
          rw [← List.map_append] at hx
          obtain ⟨e, heAT, rfl⟩ := List.mem_map.mp hx
          have he1000 : e < 1000 := by
            rcases List.mem_append.mp heAT with h | h
            · exact hA1000 e h
            · exact hT1000 e h
          rw [isSuffixOf_ckptName p e hp1000 he1000] at hsuf
          rw [← hsuf]
        rw [movePass_unique (ckptName p) (ckptName p) _
          (isSuffixOf_ckptName_self p) hndm hmem huniq]
        rw [List.erase_append_left _ (List.mem_map_of_mem ckptName hpA)]
        rw [map_erase_ckptName A p hA1000 hp1000 hndA]
        simp [List.append_assoc]
      rw [hstep]
      have hpps : p ∉ ps := (List.nodup_cons.mp hndps).1
      have hnd' : (A.erase p ++ (T ++ [p])).Nodup := by
        apply List.Nodup.append (hndA.erase p) ?_ ?_
        · apply List.Nodup.append hndT (List.nodup_singleton p) ?_
          intro x hx1 hx2
          simp only [List.mem_singleton] at hx2
          exact hpsT p (List.mem_cons_self p ps) (hx2 ▸ hx1)
        · intro x hx1 hx2
          have hxA : x ≠ p ∧ x ∈ A := hndA.mem_erase_iff.mp hx1
          rcases List.mem_append.mp hx2 with h | h
          · exact hdisj hxA.2 h
          · simp only [List.mem_singleton] at h
            exact hxA.1 h
      have := ih (A.erase p) (T ++ [p]) (List.nodup_cons.mp hndps).2
        (fun q hq => hps1000 q (List.mem_cons_of_mem p hq))
        (fun e he => hA1000 e (List.erase_subset p A he))
        (fun e he => by
          rcases List.mem_append.mp he with h | h
          · exact hT1000 e h
          · simp only [List.mem_singleton] at h
            exact h ▸ hp1000)
        hnd'
        (fun q hq hqT => by
          rcases List.mem_append.mp hqT with h | h
          · exact hpsT q (List.mem_cons_of_mem p hq) h
          · simp only [List.mem_singleton] at h
            exact hpps (h ▸ hq))
      rw [this]
      have hfA : (A.erase p).filter (fun e => e ∉ ps)
          = A.filter (fun e => e ∉ p :: ps) := by
        rw [hndA.erase_eq_filter, List.filter_filter]
        apply List.filter_congr
        intro e _
        by_cases h1 : e = p
        · simp [h1, List.mem_cons]
        · by_cases h2 : e ∈ ps <;> simp [h1, h2, List.mem_cons]
      have hfps : ps.filter (fun q => q ∈ A.erase p)
          = ps.filter (fun q => q ∈ A) := by
        apply List.filter_congr
        intro q hq
        have hqp : q ≠ p := fun hc => hpps (hc ▸ hq)
        apply decide_eq_decide.mpr
        rw [hndA.mem_erase_iff]
        exact ⟨fun h => h.2, fun h => ⟨hqp, h⟩⟩
      have hfcons : (p :: ps).filter (fun q => q ∈ A)
          = p :: ps.filter (fun q => q ∈ A) := by
        simp [List.filter_cons, hpA]
      rw [hfA, hfps, hfcons]
      simp [List.append_assoc]
    · have hstep : movePass (ckptName p) (A.map ckptName ++ T.map ckptName)
          = A.map ckptName ++ T.map ckptName := by
        apply movePass_no_match
        intro x hx
        rw [← List.map_append] at hx
        obtain ⟨e, heAT, rfl⟩ := List.mem_map.mp hx
        have he1000 : e < 1000 := by
          rcases List.mem_append.mp heAT with h | h
          · exact hA1000 e h
          · exact hT1000 e h
        rw [Bool.eq_false_iff]
        intro htrue
        rw [isSuffixOf_ckptName p e hp1000 he1000] at htrue
        subst htrue
        rcases List.mem_append.mp heAT with h | h
        · exact hpA h
        · exact hpsT p (List.mem_cons_self p ps) h
      rw [hstep]
      have := ih A T (List.nodup_cons.mp hndps).2
        (fun q hq => hps1000 q (List.mem_cons_of_mem p hq))
        hA1000 hT1000 hndAT
        (fun q hq => hpsT q (List.mem_cons_of_mem p hq))
      rw [this]
      have hfA : A.filter (fun e => e ∉ ps) = A.filter (fun e => e ∉ p :: ps) := by
        apply List.filter_congr
        intro e he
        have hep : e ≠ p := fun hc => hpA (hc ▸ he)
        by_cases h2 : e ∈ ps <;> simp [h2, hep, List.mem_cons]
      have hfcons : (p :: ps).filter (fun q => q ∈ A)
          = ps.filter (fun q => q ∈ A) := by
        simp [List.filter_cons, hpA]
      rw [hfA, hfcons]

/-- Sorting an already lexicographically sorted list is the identity. -/
theorem lexSort_of_sorted :
    ∀ l : List (List Char), l.Pairwise (fun a b => lexLe a b = true) →
      lexSort l = l := by
  intro l
  induction l with
  | nil => intro _; rfl
  | cons x xs ih =>
    intro h
    have hx := List.pairwise_cons.mp h
    show insLex x (lexSort xs) = x :: xs
    rw [ih hx.2]
    cases xs with
    | nil => rfl
    | cons y ys =>
      show insLex x (y :: ys) = x :: y :: ys
      simp only [insLex]
      rw [if_pos (hx.1 y (List.mem_cons_self y ys))]

/-- The checkpoint visit order of `do_measurements_on_checkpoints`, for
any run whose saved epochs are distinct and all below 1000 (so that no
filename is a proper suffix of another's): the checkpoints at priority
epochs come first, in descending priority value, followed by all
remaining checkpoints in descending epoch order. -/
theorem visitOrder_eq_claimed (S : List Nat) (hs : S.Pairwise (· < ·))
    (h1000 : ∀ e ∈ S, e < 1000) :
    visitOrder S = claimedOrder S := by
  have hndS : S.Nodup := hs.imp (fun h => Nat.ne_of_lt h)
  have hnames : (S.map ckptName).Pairwise (fun a b => lexLe a b = true) := by
    rw [List.pairwise_map]
    refine List.Pairwise.imp_of_mem ?_ hs
    intro a b ha hb hab
    exact (lexLe_ckptName a b (h1000 a ha) (h1000 b hb)).mpr (Nat.le_of_lt hab)
  have hsort : getAllSavedModelPaths S = S.map ckptName :=
    lexSort_of_sorted _ hnames
  have hfold := reorder_fold priorityCheckpoints.reverse S []
    (by decide) (by decide) h1000
    (fun e he => absurd he (List.not_mem_nil e))
    (by rw [List.append_nil]; exact hndS)
    (fun p _ hT => absurd hT (List.not_mem_nil p))
  unfold visitOrder reorderPaths
  rw [hsort]
  rw [show S.map ckptName = S.map ckptName ++ List.map ckptName ([] : List Nat) by
    simp]
  show (List.foldl (fun acc e => movePass (ckptName e) acc)
    (S.map ckptName ++ List.map ckptName ([] : List Nat))
    priorityCheckpoints.reverse).reverse = claimedOrder S
  rw [hfold]
  have hfR : S.filter (fun e => e ∉ priorityCheckpoints.reverse)
      = S.filter (fun e => e ∉ priorityCheckpoints) := by
    apply List.filter_congr
    intro e _
    apply decide_eq_decide.mpr
    rw [List.mem_reverse]
  rw [hfR]
  simp only [List.nil_append, List.reverse_append, List.filter_reverse,
    List.reverse_reverse, claimedOrder, List.map_append]
  rw [List.map_reverse, List.map_reverse, List.reverse_reverse]

/-! ## Lemmas: the checkpoint store and the epoch loop -/

theorem lookup_filter_self {σ : Type} (store : List (Nat × σ)) (e : Nat) :
    (store.filter (fun p => !(p.1 == e))).lookup e = none := by
  induction store with
  | nil => rfl
  | cons hd rest ih =>
    obtain ⟨k, v⟩ := hd
    by_cases h : k = e
    · simp [List.filter_cons, h, ih]
    · have hke : (k == e) = false := by simp [h]
      have hek : (e == k) = false := by simp [Ne.symm h]
      simp [List.filter_cons, hke, List.lookup_cons, hek, ih]

theorem lookup_filter_other {σ : Type} (store : List (Nat × σ)) (e E : Nat)
    (hne : E ≠ e) :
    (store.filter (fun p => !(p.1 == e))).lookup E = store.lookup E := by
  induction store with
  | nil => rfl
  | cons hd rest ih =>
    obtain ⟨k, v⟩ := hd
    by_cases h : k = e
    · have hke : (k == e) = true := by simp [h]
      have hEk : (E == k) = false := by simp [h ▸ hne]
      simp [List.filter_cons, hke, List.lookup_cons, hEk, ih]
    · have hke : (k == e) = false := by simp [h]
      simp [List.filter_cons, hke, List.lookup_cons, ih]

/-- `save_model` overwrite semantics at the level of lookups. -/
theorem lookup_saveModel {σ : Type} (store : List (Nat × σ)) (e : Nat) (s : σ)
    (E : Nat) :
    (saveModel store e s).lookup E = if E = e then some s else store.lookup E := by
  unfold saveModel
  rw [List.lookup_append]
  by_cases h : E = e
  · subst h
    rw [lookup_filter_self]
    simp [List.lookup_cons]
  · rw [lookup_filter_other store e E h]
    have hEe : (E == e) = false := by simp [h]
    have hsing : ([(e, s)] : List (Nat × σ)).lookup E = none := by
      simp [List.lookup_cons, hEe]
    rw [hsing, Option.or_none, if_neg h]

theorem mem_saveModel {σ : Type} (store : List (Nat × σ)) (e : Nat) (s : σ)
    (p : Nat × σ) (hp : p ∈ saveModel store e s) : p ∈ store ∨ p = (e, s) := by
  unfold saveModel at hp
  rcases List.mem_append.mp hp with h | h
  · exact Or.inl (List.mem_of_mem_filter h)
  · simp only [List.mem_singleton] at h
    exact Or.inr h

/-- The numerically greatest epoch present in a store (0 when empty). -/
def keyMax {σ : Type} : List (Nat × σ) → Nat
  | [] => 0
  | p :: rest => max p.1 (keyMax rest)

theorem keyMax_ge {σ : Type} :
    ∀ (store : List (Nat × σ)) (p : Nat × σ), p ∈ store → p.1 ≤ keyMax store := by
  intro store
  induction store with
  | nil => intro p h; exact absurd h (List.not_mem_nil p)
  | cons hd rest ih =>
    intro p hp
    rcases List.mem_cons.mp hp with h | h
    · subst h; exact Nat.le_max_left _ _
    · exact Nat.le_trans (ih p h) (Nat.le_max_right _ _)

/-- With all saved epochs below 1000, `sorted(paths)[-1]` + `load` picks
the entry with the numerically greatest epoch. -/
theorem latestCheckpoint_max {σ : Type} :
    ∀ store : List (Nat × σ), store ≠ [] → (∀ p ∈ store, p.1 < 1000) →
      ∃ s, latestCheckpoint store = some (keyMax store, s) ∧
        (keyMax store, s) ∈ store := by
  intro store
  induction store with
  | nil => intro h; exact absurd rfl h
  | cons hd rest ih =>
    intro _ hlt
    obtain ⟨e, s⟩ := hd
    have he1000 : e < 1000 := hlt (e, s) (List.mem_cons_self _ _)
    cases rest with
    | nil =>
      refine ⟨s, ?_, ?_⟩
      · simp [latestCheckpoint, keyMax, Nat.max_zero]
      · simp [keyMax, Nat.max_zero]
    | cons q qs =>
      obtain ⟨s', hs'1, hs'2⟩ := ih (by simp)
        (fun p hp => hlt p (List.mem_cons_of_mem _ hp))
      have hk1000 : keyMax (q :: qs) < 1000 := by
        have := hlt _ (List.mem_cons_of_mem _ hs'2)
        simpa using this
      have hout : latestCheckpoint ((e, s) :: q :: qs) =
          if lexLe (ckptName e) (ckptName (keyMax (q :: qs))) then
            some (keyMax (q :: qs), s') else some (e, s) := by
        show (match latestCheckpoint (q :: qs) with
          | none => some (e, s)
          | some (e', s'') =>
            if lexLe (ckptName e) (ckptName e') then some (e', s'')
            else some (e, s)) = _
        rw [hs'1]
      rw [hout]
      by_cases hle : e ≤ keyMax (q :: qs)
      · rw [if_pos ((lexLe_ckptName e (keyMax (q :: qs)) he1000 hk1000).mpr hle)]
        have hkm : keyMax ((e, s) :: q :: qs) = keyMax (q :: qs) := by
          show max e (keyMax (q :: qs)) = keyMax (q :: qs)
          exact Nat.max_eq_right hle
        rw [hkm]
        exact ⟨s', rfl, List.mem_cons_of_mem _ hs'2⟩
      · rw [if_neg (fun hc => hle ((lexLe_ckptName e (keyMax (q :: qs)) he1000 hk1000).mp hc))]
        have hkm : keyMax ((e, s) :: q :: qs) = e := by
          show max e (keyMax (q :: qs)) = e
          exact Nat.max_eq_left (by omega)
        rw [hkm]
        exact ⟨s, rfl, List.mem_cons_self _ _⟩

theorem trainGo_succ {σ : Type} (upd : Nat → σ → σ) (nanAt : Nat → Bool)
    (logE : List Nat) (maxE fuel epoch : Nat) (m : σ) (store : List (Nat × σ)) :
    trainGo upd nanAt logE maxE (fuel + 1) epoch m store =
      if nanAt epoch then
        ((if epoch ∈ logE then saveModel store epoch m else store),
         (if epoch ∈ logE then [Event.save epoch] else []) ++ [Event.abort],
         true)
      else
        ((trainGo upd nanAt logE maxE fuel (epoch + 1) (upd epoch m)
            (if epoch ∈ logE then saveModel store epoch m else store)).1,
         (if epoch ∈ logE then [Event.save epoch] else []) ++
           Event.run epoch ::
             (trainGo upd nanAt logE maxE fuel (epoch + 1) (upd epoch m)
               (if epoch ∈ logE then saveModel store epoch m else store)).2.1,
         (trainGo upd nanAt logE maxE fuel (epoch + 1) (upd epoch m)
           (if epoch ∈ logE then saveModel store epoch m else store)).2.2) := rfl

theorem trainGo_succ_nan {σ : Type} (upd : Nat → σ → σ) (nanAt : Nat → Bool)
    (logE : List Nat) (maxE fuel epoch : Nat) (m : σ) (store : List (Nat × σ))
    (hn : nanAt epoch = true) :
    trainGo upd nanAt logE maxE (fuel + 1) epoch m store =
      ((if epoch ∈ logE then saveModel store epoch m else store),
       (if epoch ∈ logE then [Event.save epoch] else []) ++ [Event.abort],
       true) := by
  rw [trainGo_succ, hn]
  rfl

theorem trainGo_succ_ok {σ : Type} (upd : Nat → σ → σ) (nanAt : Nat → Bool)
    (logE : List Nat) (maxE fuel epoch : Nat) (m : σ) (store : List (Nat × σ))
    (hn : nanAt epoch = false) :
    trainGo upd nanAt logE maxE (fuel + 1) epoch m store =
      ((trainGo upd nanAt logE maxE fuel (epoch + 1) (upd epoch m)
          (if epoch ∈ logE then saveModel store epoch m else store)).1,
       (if epoch ∈ logE then [Event.save epoch] else []) ++
         Event.run epoch ::
           (trainGo upd nanAt logE maxE fuel (epoch + 1) (upd epoch m)
             (if epoch ∈ logE then saveModel store epoch m else store)).2.1,
       (trainGo upd nanAt logE maxE fuel (epoch + 1) (upd epoch m)
         (if epoch ∈ logE then saveModel store epoch m else store)).2.2) := by
  rw [trainGo_succ, hn]
  rfl

/-- Behaviour of the epoch loop when the loss goes NaN at epoch `k`
(the first NaN epoch, within the loop's range): the call aborts, the
abort is the final event — nothing at all happens after it — every
checkpoint saved in the call is for an epoch `≤ k`, and no epoch `≥ k`
completes training. -/
theorem trainGo_abort {σ : Type} (upd : Nat → σ → σ) (nanAt : Nat → Bool)
    (logE : List Nat) (maxE k : Nat) (hk : nanAt k = true)
    (hfirst : ∀ j, j < k → nanAt j = false) :
    ∀ (fuel epoch : Nat) (m : σ) (store : List (Nat × σ)),
      epoch ≤ k → k < epoch + fuel →
      (trainGo upd nanAt logE maxE fuel epoch m store).2.2 = true ∧
      (∃ evs, (trainGo upd nanAt logE maxE fuel epoch m store).2.1
          = evs ++ [Event.abort]) ∧
      (∀ e, Event.save e ∈ (trainGo upd nanAt logE maxE fuel epoch m store).2.1 →
        e ≤ k) ∧
      (∀ e, Event.run e ∈ (trainGo upd nanAt logE maxE fuel epoch m store).2.1 →
        e < k) := by
  intro fuel
  induction fuel with
  | zero => intro epoch m store h1 h2; exact absurd h2 (by omega)
  | succ fuel ih =>
    intro epoch m store h1 h2
    by_cases hek : epoch = k
    · subst hek
      rw [trainGo_succ_nan upd nanAt logE maxE fuel epoch m store hk]
      refine ⟨rfl, ⟨_, rfl⟩, ?_, ?_⟩
      · intro e he
        rcases List.mem_append.mp he with h | h
        · by_cases hl : epoch ∈ logE
          · rw [if_pos hl] at h
            simp only [List.mem_singleton] at h
            injection h with h'
            omega
          · rw [if_neg hl] at h
            exact absurd h (List.not_mem_nil _)
        · simp only [List.mem_singleton] at h
          exact Event.noConfusion h
      · intro e he
        rcases List.mem_append.mp he with h | h
        · by_cases hl : epoch ∈ logE
          · rw [if_pos hl] at h
            simp only [List.mem_singleton] at h
            exact Event.noConfusion h
          · rw [if_neg hl] at h
            exact absurd h (List.not_mem_nil _)
        · simp only [List.mem_singleton] at h
          exact Event.noConfusion h
    · have hne : nanAt epoch = false := hfirst epoch (by omega)
      rw [trainGo_succ_ok upd nanAt logE maxE fuel epoch m store hne]
      obtain ⟨ihf, ⟨evs', ihe⟩, ihs, ihr⟩ := ih (epoch + 1) (upd epoch m)
        (if epoch ∈ logE then saveModel store epoch m else store)
        (by omega) (by omega)
      refine ⟨ihf, ?_, ?_, ?_⟩
      · refine ⟨(if epoch ∈ logE then [Event.save epoch] else []) ++
          Event.run epoch :: evs', ?_⟩
        rw [ihe]
        simp [List.append_assoc]
      · intro e he
        rcases List.mem_append.mp he with h | h
        · by_cases hl : epoch ∈ logE
          · rw [if_pos hl] at h
            simp only [List.mem_singleton] at h
            injection h with h'
            omega
          · rw [if_neg hl] at h
            exact absurd h (List.not_mem_nil _)
        · rcases List.mem_cons.mp h with h | h
          · exact Event.noConfusion h
          · exact ihs e h
      · intro e he
        rcases List.mem_append.mp he with h | h
        · by_cases hl : epoch ∈ logE
          · rw [if_pos hl] at h
            simp only [List.mem_singleton] at h
            exact Event.noConfusion h
          · rw [if_neg hl] at h
            exact absurd h (List.not_mem_nil _)
        · rcases List.mem_cons.mp h with h | h
          · injection h with h'
            omega
          · exact ihr e h

/-- The events one non-diverging epoch contributes: the checkpoint save
(when the epoch is a log epoch) strictly before the epoch's training. -/
def epochTrace (logE : List Nat) (e : Nat) : List Event :=
  (if e ∈ logE then [Event.save e] else []) ++ [Event.run e]

/-- Behaviour of the epoch loop when no loss ever goes NaN: the run
completes, its trace is exactly one `epochTrace` block per epoch in
order followed by the final save at `max_epochs`, and the resulting
store holds, at every log epoch `E` of the range, the state *entering*
epoch `E` — and at `max_epochs` the final state — leaving all other
epochs' entries untouched. -/
theorem trainGo_noNaN {σ : Type} (upd : Nat → σ → σ) (nanAt : Nat → Bool)
    (logE : List Nat) (maxE : Nat) (hnan : ∀ j, nanAt j = false) :
    ∀ (fuel epoch : Nat) (m : σ) (store : List (Nat × σ)),
      epoch + fuel = maxE →
      (trainGo upd nanAt logE maxE fuel epoch m store).2.2 = false ∧
      (trainGo upd nanAt logE maxE fuel epoch m store).2.1
        = (List.range' epoch fuel).flatMap (epochTrace logE)
            ++ [Event.save maxE] ∧
      (∀ E, ((trainGo upd nanAt logE maxE fuel epoch m store).1).lookup E =
        if E = maxE then some (iterUpd upd m epoch fuel)
        else if epoch ≤ E ∧ E < maxE ∧ E ∈ logE then
          some (iterUpd upd m epoch (E - epoch))
        else store.lookup E) := by
  intro fuel
  induction fuel with
  | zero =>
    intro epoch m store hfe
    refine ⟨rfl, by simp [trainGo], ?_⟩
    intro E
    show (saveModel store maxE m).lookup E = _
    rw [lookup_saveModel]
    by_cases hEmax : E = maxE
    · rw [if_pos hEmax, if_pos hEmax]
      rfl
    · rw [if_neg hEmax, if_neg hEmax,
        if_neg (fun hc => by obtain ⟨hc1, hc2, _⟩ := hc; omega)]
  | succ fuel ih =>
    intro epoch m store hfe
    have hne : nanAt epoch = false := hnan epoch
    rw [trainGo_succ_ok upd nanAt logE maxE fuel epoch m store hne]
    obtain ⟨ihf, iht, ihl⟩ := ih (epoch + 1) (upd epoch m)
      (if epoch ∈ logE then saveModel store epoch m else store) (by omega)
    refine ⟨ihf, ?_, ?_⟩
    · show (if epoch ∈ logE then [Event.save epoch] else []) ++
        Event.run epoch :: (trainGo upd nanAt logE maxE fuel (epoch + 1)
          (upd epoch m)
          (if epoch ∈ logE then saveModel store epoch m else store)).2.1 = _
      rw [iht, List.range'_succ, List.flatMap_cons]
      simp [epochTrace, List.append_assoc]
    · intro E
      show (trainGo upd nanAt logE maxE fuel (epoch + 1) (upd epoch m)
        (if epoch ∈ logE then saveModel store epoch m else store)).1.lookup E = _
      rw [ihl E]
      by_cases hEmax : E = maxE
      · rw [if_pos hEmax, if_pos hEmax]
        rfl
      · rw [if_neg hEmax, if_neg hEmax]
        by_cases hmid : epoch + 1 ≤ E ∧ E < maxE ∧ E ∈ logE
        · rw [if_pos hmid, if_pos ⟨by omega, hmid.2⟩]
          have hsub : E - epoch = (E - (epoch + 1)) + 1 := by omega
          rw [hsub]
          rfl
        · rw [if_neg hmid]
          by_cases hEe : E = epoch
          · subst hEe
            by_cases hlog : E ∈ logE
            · rw [if_pos hlog, lookup_saveModel, if_pos rfl,
                if_pos ⟨Nat.le_refl E, by omega, hlog⟩, Nat.sub_self]
              rfl
            · rw [if_neg hlog, if_neg (fun hc => hlog hc.2.2)]
          · by_cases hlog : epoch ∈ logE
            · rw [if_pos hlog, lookup_saveModel, if_neg hEe,
                if_neg (fun hc => hmid ⟨by omega, hc.2⟩)]
            · rw [if_neg hlog, if_neg (fun hc => hmid ⟨by omega, hc.2⟩)]

/-! ## Lemmas: `do_measurements` -/

theorem doMeasurements_cons (epoch : Option Nat) (id : List Char) (df : DF)
    (rest : List (List Char × DF)) :
    doMeasurements epoch ((id, df) :: rest) =
      if valueCol ∈ df.cols ∨ df.rows = [] then
        if df.rows = [] then
          match doMeasurements epoch rest with
          | .error i => .error i
          | .ok (ws, out) => .ok (id :: ws, out)
        else
          match doMeasurements epoch rest with
          | .error i => .error i
          | .ok (ws, out) => .ok (ws, (id, stampIf epoch df) :: out)
      else .error id := rfl

theorem doMeasurements_cons_bad (epoch : Option Nat) (id : List Char) (df : DF)
    (rest : List (List Char × DF)) (h : ¬(valueCol ∈ df.cols ∨ df.rows = [])) :
    doMeasurements epoch ((id, df) :: rest) = .error id := by
  rw [doMeasurements_cons, if_neg h]

theorem doMeasurements_cons_empty (epoch : Option Nat) (id : List Char) (df : DF)
    (rest : List (List Char × DF)) (h2 : df.rows = []) :
    doMeasurements epoch ((id, df) :: rest) =
      match doMeasurements epoch rest with
      | .error i => .error i
      | .ok (ws, out) => .ok (id :: ws, out) := by
  rw [doMeasurements_cons, if_pos (Or.inr h2), if_pos h2]

theorem doMeasurements_cons_good (epoch : Option Nat) (id : List Char) (df : DF)
    (rest : List (List Char × DF)) (h1 : valueCol ∈ df.cols) (h2 : df.rows ≠ []) :
    doMeasurements epoch ((id, df) :: rest) =
      match doMeasurements epoch rest with
      | .error i => .error i
      | .ok (ws, out) =>
        .ok (ws, (id, stampIf epoch df) :: out) := by
  rw [doMeasurements_cons, if_pos (Or.inl h1), if_neg h2]

/-- `do_measurements` processes the measurer list left to right, and an
assertion failure anywhere aborts the whole call. -/
theorem doMeasurements_append (epoch : Option Nat) :
    ∀ xs ys, doMeasurements epoch (xs ++ ys) =
      match doMeasurements epoch xs with
      | .error i => .error i
      | .ok (w₁, o₁) =>
        match doMeasurements epoch ys with
        | .error i => .error i
        | .ok (w₂, o₂) => .ok (w₁ ++ w₂, o₁ ++ o₂) := by
  intro xs
  induction xs with
  | nil =>
    intro ys
    show doMeasurements epoch ys = _
    cases h : doMeasurements epoch ys with
    | error i => rfl
    | ok p => obtain ⟨w, o⟩ := p; rfl
  | cons hd rest ih =>
    intro ys
    obtain ⟨id, df⟩ := hd
    by_cases h1 : valueCol ∈ df.cols ∨ df.rows = []
    · by_cases h2 : df.rows = []
      · rw [List.cons_append, doMeasurements_cons_empty epoch id df _ h2,
          doMeasurements_cons_empty epoch id df rest h2, ih ys]
        cases doMeasurements epoch rest with
        | error i => rfl
        | ok p =>
          obtain ⟨w, o⟩ := p
          cases doMeasurements epoch ys with
          | error i => rfl
          | ok q => obtain ⟨w', o'⟩ := q; rfl
      · have h1' : valueCol ∈ df.cols := h1.resolve_right h2
        rw [List.cons_append, doMeasurements_cons_good epoch id df _ h1' h2,
          doMeasurements_cons_good epoch id df rest h1' h2, ih ys]
        cases doMeasurements epoch rest with
        | error i => rfl
        | ok p =>
          obtain ⟨w, o⟩ := p
          cases doMeasurements epoch ys with
          | error i => rfl
          | ok q => obtain ⟨w', o'⟩ := q; rfl
    · rw [List.cons_append, doMeasurements_cons_bad epoch id df _ h1,
        doMeasurements_cons_bad epoch id df rest h1]

/-- Keys of the output mapping come from the input measurer list. -/
theorem doMeasurements_out_keys (epoch : Option Nat) :
    ∀ (l : List (List Char × DF)) ws out,
      doMeasurements epoch l = .ok (ws, out) →
      ∀ k, k ∈ out.map Prod.fst → k ∈ l.map Prod.fst := by
  intro l
  induction l with
  | nil =>
    intro ws out h k hk
    simp only [doMeasurements] at h
    cases h
    exact absurd hk (by simp)
  | cons hd rest ih =>
    intro ws out h k hk
    obtain ⟨id, df⟩ := hd
    by_cases h1 : valueCol ∈ df.cols ∨ df.rows = []
    · by_cases h2 : df.rows = []
      · rw [doMeasurements_cons_empty epoch id df rest h2] at h
        cases hr : doMeasurements epoch rest with
        | error i => rw [hr] at h; exact Except.noConfusion h
        | ok p =>
          obtain ⟨w, o⟩ := p
          rw [hr] at h
          have hinj := Except.ok.inj h
          have h6 : o = out := congrArg Prod.snd hinj
          subst h6
          exact List.mem_cons_of_mem _ (ih w o hr k hk)
      · have h1' : valueCol ∈ df.cols := h1.resolve_right h2
        rw [doMeasurements_cons_good epoch id df rest h1' h2] at h
        cases hr : doMeasurements epoch rest with
        | error i => rw [hr] at h; exact Except.noConfusion h
        | ok p =>
          obtain ⟨w, o⟩ := p
          rw [hr] at h
          have hinj := Except.ok.inj h
          have h6 : (id, stampIf epoch df) :: o = out := congrArg Prod.snd hinj
          rw [← h6] at hk
          simp only [List.map_cons, List.mem_cons] at hk ⊢
          rcases hk with hk | hk
          · exact Or.inl hk
          · exact Or.inr (ih w o hr k hk)
    · rw [doMeasurements_cons_bad epoch id df rest h1] at h
      exact Except.noConfusion h

/-- Every record retained by `do_measurements` with a known epoch is
stamped: its first column is `epoch` and every row starts with the
epoch value. -/
theorem doMeasurements_stamped (e : Nat) :
    ∀ (l : List (List Char × DF)) ws out,
      doMeasurements (some e) l = .ok (ws, out) →
      ∀ p ∈ out, p.2.cols.head? = some epochCol ∧
        ∀ r ∈ p.2.rows, r.head? = some e := by
  intro l
  induction l with
  | nil =>
    intro ws out h p hp
    simp only [doMeasurements] at h
    cases h
    exact absurd hp (List.not_mem_nil p)
  | cons hd rest ih =>
    intro ws out h p hp
    obtain ⟨id, df⟩ := hd
    by_cases h1 : valueCol ∈ df.cols ∨ df.rows = []
    · by_cases h2 : df.rows = []
      · rw [doMeasurements_cons_empty (some e) id df rest h2] at h
        cases hr : doMeasurements (some e) rest with
        | error i => rw [hr] at h; exact Except.noConfusion h
        | ok q =>
          obtain ⟨w, o⟩ := q
          rw [hr] at h
          have hinj := Except.ok.inj h
          have h6 : o = out := congrArg Prod.snd hinj
          subst h6
          exact ih w o hr p hp
      · have h1' : valueCol ∈ df.cols := h1.resolve_right h2
        rw [doMeasurements_cons_good (some e) id df rest h1' h2] at h
        cases hr : doMeasurements (some e) rest with
        | error i => rw [hr] at h; exact Except.noConfusion h
        | ok q =>
          obtain ⟨w, o⟩ := q
          rw [hr] at h
          have hinj := Except.ok.inj h
          have h6 : (id, stampIf (some e) df) :: o = out := congrArg Prod.snd hinj
          rw [← h6] at hp
          rcases List.mem_cons.mp hp with hp | hp
          · subst hp
            refine ⟨rfl, ?_⟩
            intro r hr'
            obtain ⟨r', _, rfl⟩ := List.mem_map.mp hr'
            rfl
          · exact ih w o hr p hp
    · rw [doMeasurements_cons_bad (some e) id df rest h1] at h
      exact Except.noConfusion h

theorem keyMax_le {σ : Type} :
    ∀ (store : List (Nat × σ)) (b : Nat), (∀ p ∈ store, p.1 ≤ b) →
      keyMax store ≤ b := by
  intro store
  induction store with
  | nil => intro b _; exact Nat.zero_le b
  | cons hd rest ih =>
    intro b hb
    show max hd.1 (keyMax rest) ≤ b
    exact Nat.max_le.mpr ⟨hb hd (List.mem_cons_self _ _),
      ih b (fun p hp => hb p (List.mem_cons_of_mem _ hp))⟩

theorem train_empty_store {σ : Type} (upd : Nat → σ → σ) (nanAt : Nat → Bool)
    (logE : List Nat) (maxE : Nat) (m₀ : σ) :
    train upd nanAt logE maxE m₀ [] =
      trainGo upd nanAt logE maxE maxE 0 m₀ [] := rfl

theorem train_of_latest {σ : Type} (upd : Nat → σ → σ) (nanAt : Nat → Bool)
    (logE : List Nat) (maxE : Nat) (m₀ : σ) (store : List (Nat × σ))
    (e : Nat) (s : σ) (hlc : latestCheckpoint store = some (e, s)) :
    train upd nanAt logE maxE m₀ store =
      if e ≥ maxE then (store, [], false)
      else trainGo upd nanAt logE maxE (maxE - e) e s store := by
  show (match latestCheckpoint store with
    | some (e, s) =>
      if e ≥ maxE then (store, [], false)
      else trainGo upd nanAt logE maxE (maxE - e) e s store
    | none => trainGo upd nanAt logE maxE maxE 0 m₀ store) = _
  rw [hlc]

/-- The restored epoch of a `train()` resume: the epoch of
`sorted(get_all_saved_model_paths())[-1]` as reported by `load_model`. -/
def restoredEpoch {σ : Type} (store : List (Nat × σ)) : Option Nat :=
  (latestCheckpoint store).map Prod.fst

/-- After a completed no-NaN run from an empty store, the latest
checkpoint is the one at `max_epochs` (when `max_epochs < 1000`). -/
theorem latest_after_run {σ : Type} (upd : Nat → σ → σ) (nanAt : Nat → Bool)
    (logE : List Nat) (maxE : Nat) (m₀ : σ)
    (hmax : maxE < 1000) (hnan : ∀ j, nanAt j = false) :
    ∃ s, latestCheckpoint (train upd nanAt logE maxE m₀ []).1 = some (maxE, s) := by
  rw [train_empty_store]
  obtain ⟨-, -, hl⟩ := trainGo_noNaN upd nanAt logE maxE hnan maxE 0 m₀ []
    (by omega)
  set st := (trainGo upd nanAt logE maxE maxE 0 m₀ []).1 with hst
  have hmaxmem : ∃ p ∈ st, p.1 = maxE := by
    have hsome : (st.lookup maxE).isSome := by
      rw [hl maxE, if_pos rfl]
      rfl
    obtain ⟨p, hp, hbeq⟩ := List.lookup_isSome_iff.mp hsome
    have : maxE = p.1 := by simpa using hbeq
    exact ⟨p, hp, this.symm⟩
  have hkeys : ∀ p ∈ st, p.1 ≤ maxE := by
    intro p hp
    have hsome : (st.lookup p.1).isSome :=
      List.lookup_isSome_iff.mpr ⟨p, hp, by simp⟩
    rw [hl p.1] at hsome
    by_cases h1 : p.1 = maxE
    · omega
    · rw [if_neg h1] at hsome
      by_cases h2 : 0 ≤ p.1 ∧ p.1 < maxE ∧ p.1 ∈ logE
      · omega
      · rw [if_neg h2] at hsome
        exact absurd hsome (by simp)
  obtain ⟨q, hq, hq1⟩ := hmaxmem
  have hne : st ≠ [] := List.ne_nil_of_mem hq
  obtain ⟨s, hlc, -⟩ := latestCheckpoint_max st hne
    (fun p hp => by have := hkeys p hp; omega)
  have hkm : keyMax st = maxE := by
    have h1 : keyMax st ≤ maxE := keyMax_le st maxE hkeys
    have h2 : maxE ≤ keyMax st := hq1 ▸ keyMax_ge st q hq
    omega
  exact ⟨s, by rw [hlc, hkm]⟩

theorem submitJobs_fail (failAt : Nat → Bool) (k : Nat) (hfail : failAt k = true)
    (hbefore : ∀ j, j < k → failAt j = false) :
    ∀ (n s : Nat), s ≤ k → k < s + n →
      submitJobs failAt s n = (List.range' s (k - s)).map SubmitAction.submit := by
  intro n
  induction n with
  | zero => intro s h1 h2; exact absurd h2 (by omega)
  | succ n ih =>
    intro s h1 h2
    by_cases hsk : s = k
    · subst hsk
      show (if failAt s then [] else _) = _
      rw [hfail, if_pos rfl, Nat.sub_self]
      rfl
    · have hfs : failAt s = false := hbefore s (by omega)
      show (if failAt s then [] else
        SubmitAction.submit s :: submitJobs failAt (s + 1) n) = _
      rw [hfs, if_neg (by simp)]
      rw [ih (s + 1) (by omega) (by omega)]
      have hks : k - s = (k - (s + 1)) + 1 := by omega
      rw [hks, List.range'_succ]
      rfl

/-! ## The claims -/

/-- **C1, counterexample.**  The claim "for *every* set of saved
checkpoints the visit order is priority epochs descending, then
remaining epochs descending" fails at saved epochs `{100, 200, 1100}`:
the name `1100.tar` ends in `100.tar`, so the mutate-while-iterating
pass disturbs the walk (removing `100.tar` makes the iterator skip the
next entry), and the scheduler visits `[100, 200, 1100]` where the
claim demands `[100, 1100, 200]` (priority 100 first, remaining
descending). -/
theorem c1_counterexample :
    visitOrder [100, 200, 1100]
      = [ckptName 100, ckptName 200, ckptName 1100] ∧
    claimedOrder [100, 200, 1100]
      = [ckptName 100, ckptName 1100, ckptName 200] ∧
    visitOrder [100, 200, 1100] ≠ claimedOrder [100, 200, 1100] := by
  refine ⟨by decide, by decide, ?_⟩
  decide

/-- **C1 (amended).**  For every run whose saved checkpoint epochs are
distinct and all below 1000 — so every filename is exactly three padded
digits and the `endswith(f'{epoch:0>3}.tar')` test matches exactly the
equal epoch — `do_measurements_on_checkpoints` visits the checkpoints
at priority epochs first, in descending priority value, followed by all
remaining checkpoints in descending epoch order. -/
theorem c1_amended (S : List Nat) (hs : S.Pairwise (· < ·))
    (h1000 : ∀ e ∈ S, e < 1000) :
    visitOrder S = claimedOrder S :=
  visitOrder_eq_claimed S hs h1000

/-- **C1, witness.**  At the spec's own example `{0,1,5,10,50,100,300,600}`
the amended theorem applies and yields exactly the order
`[600, 300, 100, 10, 1, 0, 50, 5]`. -/
theorem c1_witness :
    (([0, 1, 5, 10, 50, 100, 300, 600] : List Nat).Pairwise (· < ·) ∧
      (∀ e ∈ ([0, 1, 5, 10, 50, 100, 300, 600] : List Nat), e < 1000)) ∧
    visitOrder [0, 1, 5, 10, 50, 100, 300, 600] =
      claimedOrder [0, 1, 5, 10, 50, 100, 300, 600] ∧
    claimedOrder [0, 1, 5, 10, 50, 100, 300, 600] =
      [ckptName 600, ckptName 300, ckptName 100, ckptName 10, ckptName 1,
        ckptName 0, ckptName 50, ckptName 5] :=
  ⟨⟨by decide, by decide⟩,
    c1_amended [0, 1, 5, 10, 50, 100, 300, 600] (by decide) (by decide),
    by decide⟩

/-- **C2.**  If the loss goes NaN at epoch `k` (the first such epoch,
inside the training range), `train()` aborts: the returned flag records
the fatal `RuntimeError`, the abort is the very last event of the call —
so nothing, in particular no checkpoint save, happens after it — every
checkpoint saved in the call is for an epoch `≤ k`, and no epoch `≥ k`
completes training. -/
theorem c2_nan_abort {σ : Type} (upd : Nat → σ → σ) (nanAt : Nat → Bool)
    (logE : List Nat) (maxE k : Nat) (m₀ : σ)
    (hk : k < maxE) (hnan : nanAt k = true)
    (hfirst : ∀ j, j < k → nanAt j = false) :
    (train upd nanAt logE maxE m₀ []).2.2 = true ∧
    (∃ evs, (train upd nanAt logE maxE m₀ []).2.1 = evs ++ [Event.abort]) ∧
    (∀ e, Event.save e ∈ (train upd nanAt logE maxE m₀ []).2.1 → e ≤ k) ∧
    (∀ e, Event.run e ∈ (train upd nanAt logE maxE m₀ []).2.1 → e < k) := by
  rw [train_empty_store]
  exact trainGo_abort upd nanAt logE maxE k hnan hfirst maxE 0 m₀ []
    (by omega) (by omega)

/-- **C2, witness.**  A run with `max_epochs = 5`, log epochs `{0, 2, 3}`
and the loss going NaN at epoch 3. -/
theorem c2_witness :
    ((3 : Nat) < 5 ∧ (((3 : Nat) == 3) : Bool) = true ∧
      (∀ j, j < 3 → (((j == 3) : Bool) = false))) ∧
    ((train (fun _ s => s + 1) (fun j => j == 3) [0, 2, 3] 5 (0 : Nat) []).2.2
        = true ∧
     (∃ evs, (train (fun _ s => s + 1) (fun j => j == 3) [0, 2, 3] 5 (0 : Nat)
        []).2.1 = evs ++ [Event.abort]) ∧
     (∀ e, Event.save e ∈ (train (fun _ s => s + 1) (fun j => j == 3) [0, 2, 3]
        5 (0 : Nat) []).2.1 → e ≤ 3) ∧
     (∀ e, Event.run e ∈ (train (fun _ s => s + 1) (fun j => j == 3) [0, 2, 3]
        5 (0 : Nat) []).2.1 → e < 3)) :=
  ⟨⟨by decide, by decide, by
      intro j hj
      have : j = 0 ∨ j = 1 ∨ j = 2 := by omega
      rcases this with rfl | rfl | rfl <;> rfl⟩,
    c2_nan_abort (fun _ s => s + 1) (fun j => j == 3) [0, 2, 3] 5 3 0
      (by decide) (by decide)
      (by
        intro j hj
        have : j = 0 ∨ j = 1 ∨ j = 2 := by omega
        rcases this with rfl | rfl | rfl <;> rfl)⟩

set_option maxRecDepth 1000000 in
/-- **C3, counterexample.**  `train()` is *not* idempotent for every
completed run: with `max_epochs = 1000` and log epoch 999, the first
call completes (it trains epoch 999, among others) and saves checkpoints
999 and 1000; but `sorted(paths)[-1]` sorts *strings*, and
`"999.tar" > "1000.tar"` lexicographically, so the second call restores
epoch 999 instead of 1000 and trains epoch 999 again — saving again and
retraining rather than being a no-op. -/
theorem c3_counterexample :
    Event.run 999 ∈
      (train (fun _ s => s + 1) (fun _ => false) [999] 1000 (0 : Nat) []).2.1 ∧
    (train (fun _ s => s + 1) (fun _ => false) [999] 1000 (0 : Nat)
        (train (fun _ s => s + 1) (fun _ => false) [999] 1000 (0 : Nat) []).1).2.1
      = [Event.save 999, Event.run 999, Event.save 1000] := by
  constructor
  · decide
  · decide

/-- **C3 (amended).**  For every run with `max_epochs < 1000` (every
checkpoint filename then sorts in numeric order) and no divergence:
after one completed `train()` call from scratch, a second call restores
the final checkpoint, finds `start_epoch ≥ max_epochs`, and returns
immediately — no events at all, so no epoch is retrained, no checkpoint
is saved, and the store (hence the checkpoint set and the final epoch)
is unchanged; while the first call's trace runs every epoch of
`[0, max_epochs)` exactly once, in order. -/
theorem c3_amended {σ : Type} (upd : Nat → σ → σ) (nanAt : Nat → Bool)
    (logE : List Nat) (maxE : Nat) (m₀ : σ)
    (hmax : maxE < 1000) (hnan : ∀ j, nanAt j = false) :
    train upd nanAt logE maxE m₀ ((train upd nanAt logE maxE m₀ []).1) =
      ((train upd nanAt logE maxE m₀ []).1, [], false) ∧
    (train upd nanAt logE maxE m₀ []).2.1 =
      (List.range' 0 maxE).flatMap (epochTrace logE) ++ [Event.save maxE] := by
  obtain ⟨s, hlc⟩ := latest_after_run upd nanAt logE maxE m₀ hmax hnan
  constructor
  · rw [train_of_latest upd nanAt logE maxE m₀ _ maxE s hlc,
      if_pos (Nat.le_refl maxE)]
  · rw [train_empty_store]
    exact (trainGo_noNaN upd nanAt logE maxE hnan maxE 0 m₀ [] (by omega)).2.1

/-- **C3, witness.**  A concrete completed run: `max_epochs = 4`, log
epochs `{1, 3}`; the second call is a no-op. -/
theorem c3_witness :
    ((4 : Nat) < 1000 ∧ (∀ j : Nat, (fun _ => false) j = false)) ∧
    (train (fun e s => s + e) (fun _ => false) [1, 3] 4 (10 : Nat)
        ((train (fun e s => s + e) (fun _ => false) [1, 3] 4 (10 : Nat) []).1) =
      ((train (fun e s => s + e) (fun _ => false) [1, 3] 4 (10 : Nat) []).1,
        [], false) ∧
     (train (fun e s => s + e) (fun _ => false) [1, 3] 4 (10 : Nat) []).2.1 =
      (List.range' 0 4).flatMap (epochTrace [1, 3]) ++ [Event.save 4]) :=
  ⟨⟨by decide, fun j => rfl⟩,
    c3_amended (fun e s => s + e) (fun _ => false) [1, 3] 4 10 (by decide)
      (fun j => rfl)⟩

/-- **C4, counterexample.**  "The restored epoch equals the numeric
maximum of the saved epochs" fails once an epoch reaches 1000: with
checkpoints saved at epochs 600 and 1100, `sorted(paths)[-1]` picks
`"600.tar"` (lexicographically greatest, since `'6' > '1'`), so the
restore loads epoch 600, not the numeric maximum 1100. -/
theorem c4_counterexample :
    restoredEpoch (saveModel (saveModel ([] : List (Nat × Nat)) 600 0) 1100 1)
      = some 600 ∧
    keyMax (saveModel (saveModel ([] : List (Nat × Nat)) 600 0) 1100 1)
      = 1100 ∧
    restoredEpoch (saveModel (saveModel ([] : List (Nat × Nat)) 600 0) 1100 1)
      ≠ some (keyMax (saveModel (saveModel ([] : List (Nat × Nat)) 600 0) 1100 1)) := by
  refine ⟨by decide, by decide, ?_⟩
  decide

/-- **C4 (amended).**  For every non-empty store whose saved epochs are
all below 1000, the resume step of `train()` — load the checkpoint whose
path is last in sorted order — restores exactly the entry with the
numerically greatest epoch: the restored epoch is an upper bound of all
saved epochs and is itself saved. -/
theorem c4_amended {σ : Type} (store : List (Nat × σ)) (hne : store ≠ [])
    (h1000 : ∀ p ∈ store, p.1 < 1000) :
    restoredEpoch store = some (keyMax store) ∧
    (∀ p ∈ store, p.1 ≤ keyMax store) ∧
    (∃ s, (keyMax store, s) ∈ store) := by
  obtain ⟨s, h1, h2⟩ := latestCheckpoint_max store hne h1000
  refine ⟨?_, fun p hp => keyMax_ge store p hp, ⟨s, h2⟩⟩
  rw [restoredEpoch, h1]
  rfl

/-- **C4, witness.**  A store holding epochs 600, 50 and 999: the
restored epoch is 999. -/
theorem c4_witness :
    (([(600, 0), (50, 1), (999, 2)] : List (Nat × Nat)) ≠ [] ∧
      (∀ p ∈ ([(600, 0), (50, 1), (999, 2)] : List (Nat × Nat)), p.1 < 1000)) ∧
    (restoredEpoch ([(600, 0), (50, 1), (999, 2)] : List (Nat × Nat))
        = some (keyMax ([(600, 0), (50, 1), (999, 2)] : List (Nat × Nat))) ∧
      (∀ p ∈ ([(600, 0), (50, 1), (999, 2)] : List (Nat × Nat)),
        p.1 ≤ keyMax ([(600, 0), (50, 1), (999, 2)] : List (Nat × Nat))) ∧
      (∃ s, (keyMax ([(600, 0), (50, 1), (999, 2)] : List (Nat × Nat)), s)
        ∈ ([(600, 0), (50, 1), (999, 2)] : List (Nat × Nat)))) :=
  ⟨⟨by decide, by decide⟩,
    c4_amended ([(600, 0), (50, 1), (999, 2)] : List (Nat × Nat))
      (by decide) (by decide)⟩

/-- **C5.**  In a run from scratch with no divergence: every log epoch
`E < max_epochs` ends up with a checkpoint holding exactly
`iterUpd upd m₀ 0 E` — the state *entering* epoch `E`, i.e. with the
updates of epochs `0..E-1` applied and *not* epoch `E`'s own update —
because the save happens before `_train_single_epoch()` for that epoch,
as the trace shows (each epoch block is save-then-run); and after the
loop a final checkpoint is unconditionally saved at `max_epochs` with
the fully trained state. -/
theorem c5_checkpoint_before_update {σ : Type} (upd : Nat → σ → σ)
    (nanAt : Nat → Bool) (logE : List Nat) (maxE E : Nat) (m₀ : σ)
    (hE : E ∈ logE) (hlt : E < maxE) (hnan : ∀ j, nanAt j = false) :
    ((train upd nanAt logE maxE m₀ []).1).lookup E
      = some (iterUpd upd m₀ 0 E) ∧
    ((train upd nanAt logE maxE m₀ []).1).lookup maxE
      = some (iterUpd upd m₀ 0 maxE) ∧
    (train upd nanAt logE maxE m₀ []).2.1 =
      (List.range' 0 maxE).flatMap (epochTrace logE) ++ [Event.save maxE] := by
  rw [train_empty_store]
  obtain ⟨-, ht, hl⟩ := trainGo_noNaN upd nanAt logE maxE hnan maxE 0 m₀ []
    (by omega)
  refine ⟨?_, ?_, ht⟩
  · rw [hl E, if_neg (by omega), if_pos ⟨by omega, hlt, hE⟩, Nat.sub_zero]
  · rw [hl maxE, if_pos rfl]

/-- **C5, witness.**  `max_epochs = 4`, log epoch 2, counting updates:
the checkpoint at 2 holds the state entering epoch 2 (two updates), not
the state after epoch 2's own update. -/
theorem c5_witness :
    ((2 : Nat) ∈ ([2] : List Nat) ∧ (2 : Nat) < 4 ∧
      (∀ j : Nat, (fun _ => false) j = false)) ∧
    (((train (fun _ s => s + 1) (fun _ => false) [2] 4 (0 : Nat) []).1).lookup 2
        = some (iterUpd (fun _ s => s + 1) 0 0 2) ∧
     ((train (fun _ s => s + 1) (fun _ => false) [2] 4 (0 : Nat) []).1).lookup 4
        = some (iterUpd (fun _ s => s + 1) 0 0 4) ∧
     (train (fun _ s => s + 1) (fun _ => false) [2] 4 (0 : Nat) []).2.1 =
      (List.range' 0 4).flatMap (epochTrace [2]) ++ [Event.save 4]) :=
  ⟨⟨by decide, by decide, fun j => rfl⟩,
    c5_checkpoint_before_update (fun _ s => s + 1) (fun _ => false) [2] 4 2 0
      (by decide) (by decide) (fun j => rfl)⟩

/-- **C6.**  In `do_measurements`, with the measurers before and after
position of interest all well-behaved: a measurer returning a non-empty
record without a `value` column trips the `assert` and the whole call
fails with that measurer's id; a measurer returning a zero-row record
is tolerated — the call succeeds, the measurer's id is recorded as a
warning, its key is absent from the output mapping (keys being unique),
and the records of all other measurers, including those *after* it, are
still produced. -/
theorem c6_record_validation (epoch : Option Nat)
    (pre rest : List (List Char × DF)) (id : List Char) (df : DF)
    (w₁ w₂ : List (List Char)) (o₁ o₂ : List (List Char × DF))
    (hpre : doMeasurements epoch pre = .ok (w₁, o₁))
    (hrest : doMeasurements epoch rest = .ok (w₂, o₂)) :
    (valueCol ∉ df.cols → df.rows ≠ [] →
      doMeasurements epoch (pre ++ (id, df) :: rest) = .error id) ∧
    (df.rows = [] →
      doMeasurements epoch (pre ++ (id, df) :: rest)
          = .ok (w₁ ++ id :: w₂, o₁ ++ o₂) ∧
      (id ∉ (pre ++ rest).map Prod.fst → id ∉ (o₁ ++ o₂).map Prod.fst)) := by
  constructor
  · intro hv hr
    rw [doMeasurements_append epoch pre ((id, df) :: rest), hpre,
      doMeasurements_cons_bad epoch id df rest
        (fun hc => hc.elim hv (fun h => hr h))]
  · intro hr
    constructor
    · rw [doMeasurements_append epoch pre ((id, df) :: rest), hpre,
        doMeasurements_cons_empty epoch id df rest hr, hrest]
    · intro hnotin hmem
      rw [List.map_append] at hmem
      rcases List.mem_append.mp hmem with h | h
      · exact hnotin (by
          rw [List.map_append]
          exact List.mem_append_left _
            (doMeasurements_out_keys epoch pre w₁ o₁ hpre id h))
      · exact hnotin (by
          rw [List.map_append]
          exact List.mem_append_right _
            (doMeasurements_out_keys epoch rest w₂ o₂ hrest id h))

/-- **C6, witness.**  Concrete measurers `a` (valid, one row) and `b`
(valid, one row) around a zero-row measurer `c`. -/
theorem c6_witness :
    (doMeasurements none [(['a'], (⟨[valueCol], [[1]]⟩ : DF))]
        = .ok ([], [(['a'], (⟨[valueCol], [[1]]⟩ : DF))]) ∧
      doMeasurements none [(['b'], (⟨[valueCol], [[2]]⟩ : DF))]
        = .ok ([], [(['b'], (⟨[valueCol], [[2]]⟩ : DF))])) ∧
    ((valueCol ∉ (⟨[valueCol], []⟩ : DF).cols →
        (⟨[valueCol], []⟩ : DF).rows ≠ [] →
      doMeasurements none ([(['a'], (⟨[valueCol], [[1]]⟩ : DF))] ++
        (['c'], (⟨[valueCol], []⟩ : DF)) ::
          [(['b'], (⟨[valueCol], [[2]]⟩ : DF))])
        = .error ['c']) ∧
    ((⟨[valueCol], []⟩ : DF).rows = [] →
      doMeasurements none ([(['a'], (⟨[valueCol], [[1]]⟩ : DF))] ++
        (['c'], (⟨[valueCol], []⟩ : DF)) ::
          [(['b'], (⟨[valueCol], [[2]]⟩ : DF))])
          = .ok ([] ++ ['c'] :: [], [(['a'], (⟨[valueCol], [[1]]⟩ : DF))] ++
            [(['b'], (⟨[valueCol], [[2]]⟩ : DF))]) ∧
      (['c'] ∉ ([(['a'], (⟨[valueCol], [[1]]⟩ : DF))] ++
          [(['b'], (⟨[valueCol], [[2]]⟩ : DF))]).map Prod.fst →
        ['c'] ∉ ([(['a'], (⟨[valueCol], [[1]]⟩ : DF))] ++
          [(['b'], (⟨[valueCol], [[2]]⟩ : DF))]).map Prod.fst))) :=
  ⟨⟨rfl, rfl⟩,
    c6_record_validation none [(['a'], (⟨[valueCol], [[1]]⟩ : DF))]
      [(['b'], (⟨[valueCol], [[2]]⟩ : DF))] ['c'] (⟨[valueCol], []⟩ : DF)
      [] [] [(['a'], (⟨[valueCol], [[1]]⟩ : DF))]
      [(['b'], (⟨[valueCol], [[2]]⟩ : DF))]
      rfl rfl⟩

/-- **C7.**  The measure set is resolved once, inside `__init__`, from
the `Measurements.measures` value: `True` selects all known measurers,
the `"fast"`/`"slow"` presets (case-insensitively) their fixed subsets,
an explicit list is taken as-is, and any other string raises
`NotImplementedError` out of the constructor — so no `Experiment`
exists and no training or measurement work can begin; every constructed
`Experiment` carries exactly the resolved set. -/
theorem c7_measure_resolution (s : List Char) (names : List (List Char))
    (hf : strLower s ≠ fastStr) (hs : strLower s ≠ slowStr) :
    mkExperiment .all = .ok ⟨ALL_MEASURES⟩ ∧
    mkExperiment (.preset fastStr) = .ok ⟨FAST_MEASURES⟩ ∧
    mkExperiment (.preset slowStr) = .ok ⟨SLOW_MEASURES⟩ ∧
    mkExperiment (.preset s) = .error s ∧
    mkExperiment (.explicitNames names) = .ok ⟨names⟩ ∧
    (∀ cfg exp, mkExperiment cfg = .ok exp →
      resolveMeasures cfg = .ok exp.measures) := by
  refine ⟨rfl, rfl, rfl, ?_, rfl, ?_⟩
  · have hres : resolveMeasures (.preset s) = .error s := by
      show (if strLower s = fastStr then Except.ok FAST_MEASURES
        else if strLower s = slowStr then Except.ok SLOW_MEASURES
        else Except.error s) = Except.error s
      rw [if_neg hf, if_neg hs]
    show (match resolveMeasures (.preset s) with
      | Except.error s' => Except.error s'
      | Except.ok ms => Except.ok (Experiment.mk ms)) = Except.error s
    rw [hres]
  · intro cfg exp h
    cases hres : resolveMeasures cfg with
    | error s' =>
      have hmk : mkExperiment cfg = .error s' := by
        show (match resolveMeasures cfg with
          | Except.error s'' => Except.error s''
          | Except.ok ms => Except.ok (Experiment.mk ms)) = Except.error s'
        rw [hres]
      rw [hmk] at h
      exact Except.noConfusion h
    | ok ms =>
      have hmk : mkExperiment cfg = .ok (Experiment.mk ms) := by
        show (match resolveMeasures cfg with
          | Except.error s'' => Except.error s''
          | Except.ok ms' => Except.ok (Experiment.mk ms')) = Except.ok (Experiment.mk ms)
        rw [hres]
      rw [hmk] at h
      have hinj := Except.ok.inj h
      rw [← hinj]

/-- **C7, witness.**  The unrecognized preset string `"bogus"` aborts
construction. -/
theorem c7_witness :
    (strLower ['b', 'o', 'g', 'u', 's'] ≠ fastStr ∧
      strLower ['b', 'o', 'g', 'u', 's'] ≠ slowStr) ∧
    (mkExperiment .all = .ok ⟨ALL_MEASURES⟩ ∧
     mkExperiment (.preset fastStr) = .ok ⟨FAST_MEASURES⟩ ∧
     mkExperiment (.preset slowStr) = .ok ⟨SLOW_MEASURES⟩ ∧
     mkExperiment (.preset ['b', 'o', 'g', 'u', 's'])
        = .error ['b', 'o', 'g', 'u', 's'] ∧
     mkExperiment (.explicitNames [['x']]) = .ok ⟨[['x']]⟩ ∧
     (∀ cfg exp, mkExperiment cfg = .ok exp →
       resolveMeasures cfg = .ok exp.measures)) :=
  ⟨⟨by decide, by decide⟩,
    c7_measure_resolution ['b', 'o', 'g', 'u', 's'] [['x']]
      (by decide) (by decide)⟩

/-- **C8.**  In the matrix fan-out path of `main`, expansion
(`parse_config_matrix`) runs first and entirely in memory: an expansion
failure propagates before any directory is written or any job
submitted, so the trace is empty of actions; on successful expansion
every variant is materialized, and a submission failure at job `k`
leaves exactly jobs `0..k-1` submitted — the model has no rollback
operation, submitted jobs stay submitted. -/
theorem c8_fanout (err : List Char) (variants : List ConfigVariant)
    (failAt : Nat → Bool) (k : Nat) (hk : k < variants.length)
    (hfail : failAt k = true) (hbefore : ∀ j, j < k → failAt j = false) :
    mainSlurm (.error err) failAt = .error err ∧
    mainSlurm (.ok variants) failAt =
      .ok ((List.range variants.length).map SubmitAction.write ++
        (List.range k).map SubmitAction.submit) := by
  refine ⟨rfl, ?_⟩
  show Except.ok ((List.range variants.length).map SubmitAction.write ++
    submitJobs failAt 0 variants.length) = _
  rw [submitJobs_fail failAt k hfail hbefore variants.length 0 (by omega)
    (by omega), Nat.sub_zero, List.range_eq_range', List.range_eq_range']

/-- **C8, witness.**  Three expanded variants with submission failing at
job 2: jobs 0 and 1 stay submitted. -/
theorem c8_witness :
    ((2 : Nat) < ([⟨0, ['a']⟩, ⟨1, ['b']⟩, ⟨2, ['c']⟩] :
        List ConfigVariant).length ∧
      (((2 : Nat) == 2) : Bool) = true ∧
      (∀ j, j < 2 → (((j == 2) : Bool) = false))) ∧
    (mainSlurm (.error ['e']) (fun j => j == 2) = .error ['e'] ∧
     mainSlurm (.ok [⟨0, ['a']⟩, ⟨1, ['b']⟩, ⟨2, ['c']⟩]) (fun j => j == 2) =
      .ok ((List.range ([⟨0, ['a']⟩, ⟨1, ['b']⟩, ⟨2, ['c']⟩] :
          List ConfigVariant).length).map SubmitAction.write ++
        (List.range 2).map SubmitAction.submit)) :=
  ⟨⟨by decide, by decide, by
      intro j hj
      have : j = 0 ∨ j = 1 := by omega
      rcases this with rfl | rfl <;> rfl⟩,
    c8_fanout ['e'] [⟨0, ['a']⟩, ⟨1, ['b']⟩, ⟨2, ['c']⟩] (fun j => j == 2) 2
      (by decide) (by decide)
      (by
        intro j hj
        have : j = 0 ∨ j = 1 := by omega
        rcases this with rfl | rfl <;> rfl)⟩

/-- **C9.**  Whenever the epoch of the checkpoint under measurement is
known, every record retained in the output of `do_measurements` is
stamped: its first column is named `epoch` and every one of its rows
carries that epoch as its first value. -/
theorem c9_epoch_stamped (e : Nat) (l : List (List Char × DF))
    (ws : List (List Char)) (out : List (List Char × DF))
    (h : doMeasurements (some e) l = .ok (ws, out)) :
    ∀ p ∈ out, p.2.cols.head? = some epochCol ∧
      ∀ r ∈ p.2.rows, r.head? = some e :=
  doMeasurements_stamped e l ws out h

/-- **C9, witness.**  One valid measurer, epoch 7: the retained record
starts with the `epoch` column and every row with 7. -/
theorem c9_witness :
    doMeasurements (some 7) [(['a'], ⟨[valueCol], [[1], [2]]⟩)]
      = .ok ([], [(['a'], insertEpoch 7 ⟨[valueCol], [[1], [2]]⟩)]) ∧
    (∀ p ∈ [(['a'], insertEpoch 7 (⟨[valueCol], [[1], [2]]⟩ : DF))],
      p.2.cols.head? = some epochCol ∧ ∀ r ∈ p.2.rows, r.head? = some 7) :=
  ⟨rfl,
    c9_epoch_stamped 7 [(['a'], ⟨[valueCol], [[1], [2]]⟩)] []
      [(['a'], insertEpoch 7 ⟨[valueCol], [[1], [2]]⟩)] rfl⟩

/-- **C10, counterexample.**  It is *not* true that every checkpoint
whose epoch's decimal form merely ends in a priority value's
three-digit form is pulled into the priority group: with saved epochs
`{100, 250, 1100}`, the pass for priority 100 removes `100.tar` first,
which makes the list iterator skip the very next entry — `1100.tar`,
the colliding checkpoint — so 1100 is never matched and is visited
*last*, after the plain non-priority checkpoint 250. -/
theorem c10_counterexample :
    visitOrder [100, 250, 1100]
      = [ckptName 100, ckptName 250, ckptName 1100] ∧
    visitOrder [100, 250, 1100]
      ≠ [ckptName 100, ckptName 1100, ckptName 250] := by
  refine ⟨by decide, ?_⟩
  decide

/-- **C10 (amended).**  The suffix test does match such colliding
checkpoints — `(ckptName 100).isSuffixOf (ckptName 1100)` holds — and
when the mutate-while-iterating pass actually reaches the colliding
checkpoint it *is* pulled into the priority group: with saved epochs
`{100, 110, 1100}`, checkpoint 1100 is moved behind 100 during the
priority-100 pass and ends up visited *first*, before the true priority
epoch 100 and before the non-priority 110.  Whether the pull-in happens
thus depends on the iterator-skip of the in-place mutation. -/
theorem c10_amended :
    (ckptName 100).isSuffixOf (ckptName 1100) = true ∧
    (100 : Nat) ≠ 1100 ∧
    visitOrder [100, 110, 1100]
      = [ckptName 1100, ckptName 100, ckptName 110] := by
  refine ⟨by decide, by decide, ?_⟩
  decide

end MLPBins
